import Mathlib

/-!
Verification development for the IPLD example repository: a content-addressed
block codec and CAR (content-addressable archive) container subsystem.

The repository's own JavaScript files (`ipld-example.js` and the legacy
`example-dag-generate.js`) are thin drivers over the block/codec/container
machinery described by the design spec (multihashes, CIDs, codecs, verified
Blocks, and the streaming container writer/reader).  That machinery is
modelled here, faithful to the spec's words, as executable Lean definitions;
the drivers (`createBlocks`, `write`, `inspect`) are translated from the
JavaScript source on top of it.
-/

namespace IpldExample

/-- The error taxonomy of the design (spec section 7). -/
inductive Err where
  | unsupportedHashError
  | unsupportedCodecError
  | malformedCIDError
  | invalidV0CIDError
  | unknownBaseEncodingError
  | decodeError
  | nonCanonicalEncodingError
  | hashMismatchError
  | codecMismatchError
  | malformedHeaderError
  | truncatedRecordError
  | writeAfterCloseError
  deriving DecidableEq, Repr

/-- Modelled from the spec: the unsigned LEB128 varint used for frame and
field lengths.  Bytes are `Nat`s below 256; every byte except the last
carries a continuation bit. -/
def putVarint (n : Nat) : List Nat :=
  if h : n < 128 then [n]
  else (n % 128 + 128) :: putVarint (n / 128)
  decreasing_by exact Nat.div_lt_self (by omega) (by omega)

/-- Modelled from the spec: varint decoding; `none` when the input ends in
the middle of a varint (every byte so far had the continuation bit set). -/
def readVarint : List Nat → Option (Nat × List Nat)
  | [] => none
  | b :: rest =>
    if b < 128 then some (b, rest)
    else
      match readVarint rest with
      | none => none
      | some (n, r) => some (n * 128 + (b - 128), r)

theorem readVarint_putVarint (n : Nat) (rest : List Nat) :
    readVarint (putVarint n ++ rest) = some (n, rest) := by
  induction n using Nat.strong_induction_on with
  | _ n ih =>
    by_cases h : n < 128
    · simp [putVarint, h, readVarint]
    · rw [putVarint]
      simp only [h, dite_false]
      have hd : n / 128 < n := Nat.div_lt_self (by omega) (by omega)
      simp only [List.cons_append, readVarint]
      have hb : ¬ (n % 128 + 128 < 128) := by omega
      rw [if_neg hb]
      simp only [List.append_eq]
      rw [ih (n / 128) hd]
      have hnm : n / 128 * 128 + n % 128 = n := by
        have := Nat.div_add_mod n 128
        omega
      simp [hnm]

theorem readVarint_length {input : List Nat} {n : Nat} {r : List Nat}
    (h : readVarint input = some (n, r)) : r.length < input.length := by
  induction input generalizing n r with
  | nil => simp [readVarint] at h
  | cons b rest ih =>
    simp only [readVarint] at h
    by_cases hb : b < 128
    · simp only [hb, if_true] at h
      cases h
      simp
    · simp only [hb, if_false] at h
      cases hr : readVarint rest with
      | none => rw [hr] at h; cases h
      | some p =>
        rw [hr] at h
        cases p with
        | mk m r2 =>
          simp at h
          obtain ⟨h1, h2⟩ := h
          subst h2
          have := ih hr
          simp
          omega

/-- Every byte of a varint is a valid byte (below 256). -/
theorem putVarint_bytes_lt (n : Nat) : ∀ b ∈ putVarint n, b < 256 := by
  induction n using Nat.strong_induction_on with
  | _ n ih =>
    by_cases h : n < 128
    · rw [putVarint]; simp [h]; omega
    · rw [putVarint]
      simp only [h, dite_false]
      intro b hb
      rcases List.mem_cons.mp hb with h1 | h1
      · omega
      · exact ih (n / 128) (Nat.div_lt_self (by omega) (by omega)) b h1

theorem putVarint_ne_nil (n : Nat) : putVarint n ≠ [] := by
  rw [putVarint]
  by_cases h : n < 128 <;> simp [h]

/-- A proper nonempty prefix of a varint fails to decode: the truncation
point is in the middle of the varint. -/
theorem readVarint_take_none (n k : Nat) (hk : 0 < k)
    (hlt : k < (putVarint n).length) :
    readVarint (List.take k (putVarint n)) = none := by
  induction n using Nat.strong_induction_on generalizing k with
  | _ n ih =>
    by_cases h : n < 128
    · rw [putVarint] at hlt
      simp [h] at hlt
      omega
    · rw [putVarint] at hlt ⊢
      simp only [h, dite_false] at hlt ⊢
      cases k with
      | zero => omega
      | succ k2 =>
        simp only [List.take_succ_cons, readVarint]
        have hb : ¬ (n % 128 + 128 < 128) := by omega
        simp only [hb, if_false]
        cases k2 with
        | zero => simp [readVarint]
        | succ k3 =>
          have hd : n / 128 < n := Nat.div_lt_self (by omega) (by omega)
          simp only [List.length_cons] at hlt
          rw [ih (n / 128) hd (k3 + 1) (by omega) (by omega)]

/-- Modelled from the spec: a multihash pairs a hash-function code with its
digest (spec section 3). -/
structure Multihash where
  functionCode : Nat
  digest : List Nat
  deriving DecidableEq, Repr

/-- Modelled from the spec: a CID binds a format version, a content-codec
code and a multihash; equality is structural (spec sections 3, 4.2). -/
structure CID where
  version : Nat
  contentCodec : Nat
  multihash : Multihash
  deriving DecidableEq, Repr

/-- Version 0 is a legacy subset restricted to a single content codec
(dag-pb, code 0x70) and the single 32-byte hash function sha2-256
(code 0x12); version 1 is general (spec sections 3, 4.2). -/
def wellFormedCid (c : CID) : Prop :=
  c.version = 1 ∨
    (c.version = 0 ∧ c.contentCodec = 112 ∧ c.multihash.functionCode = 18 ∧
      c.multihash.digest.length = 32)

instance (c : CID) : Decidable (wellFormedCid c) := by
  unfold wellFormedCid; infer_instance

/-- Modelled from the spec: binary CID form (spec sections 4.2, 6) —
version 1 is `version-varint, contentCodec-varint, functionCode-varint,
digestLength-varint, digestBytes`; version 0 is the fixed legacy shape of a
bare sha2-256 multihash `0x12 0x20 ++ digest`. -/
def cidToBytes (c : CID) : List Nat :=
  if c.version = 0 then 18 :: 32 :: c.multihash.digest
  else
    putVarint c.version ++ putVarint c.contentCodec ++
      putVarint c.multihash.functionCode ++
      putVarint c.multihash.digest.length ++ c.multihash.digest

/-- Modelled from the spec: self-delimiting CID parse from the front of a
byte stream; version 0 is recognized by the legacy lead bytes `0x12 0x20`
(spec section 4.2). -/
def readCid (input : List Nat) : Option (CID × List Nat) :=
  if input.take 2 = [18, 32] then
    let rest := input.drop 2
    if 32 ≤ rest.length then
      some (⟨0, 112, ⟨18, rest.take 32⟩⟩, rest.drop 32)
    else none
  else
    match readVarint input with
    | none => none
    | some (v, r1) =>
      if v = 1 then
        match readVarint r1 with
        | none => none
        | some (cc, r2) =>
          match readVarint r2 with
          | none => none
          | some (hc, r3) =>
            match readVarint r3 with
            | none => none
            | some (dl, r4) =>
              if dl ≤ r4.length then
                some (⟨1, cc, ⟨hc, r4.take dl⟩⟩, r4.drop dl)
              else none
      else none

mutual
/-- Modelled from the spec: the IPLD data model value universe of the two
structured codecs — null, booleans, integers, byte strings, text strings
(as code points), CID links, lists and maps (spec section 4.3). -/
inductive Value where
  | vnull : Value
  | vbool : Bool → Value
  | vint : Int → Value
  | vbytes : List Nat → Value
  | vstring : List Nat → Value
  | vlink : CID → Value
  | vlist : ValueList → Value
  | vmap : ValueMap → Value
  deriving DecidableEq, Repr
/-- A sequence of values (element type of `Value.vlist`). -/
inductive ValueList where
  | nil : ValueList
  | cons : Value → ValueList → ValueList
  deriving DecidableEq, Repr
/-- A sequence of string-keyed entries (element type of `Value.vmap`). -/
inductive ValueMap where
  | mnil : ValueMap
  | mcons : List Nat → Value → ValueMap → ValueMap
  deriving DecidableEq, Repr
end

def ValueList.length : ValueList → Nat
  | .nil => 0
  | .cons _ tl => tl.length + 1

def ValueMap.length : ValueMap → Nat
  | .mnil => 0
  | .mcons _ _ tl => tl.length + 1

/-- Sign-magnitude integer serialization used inside the canonical codec. -/
def serializeInt : Int → List Nat
  | Int.ofNat m => 0 :: putVarint m
  | Int.negSucc m => 1 :: putVarint m

def readInt (input : List Nat) : Option (Int × List Nat) :=
  match input with
  | 0 :: r =>
    match readVarint r with
    | none => none
    | some (m, r2) => some (Int.ofNat m, r2)
  | 1 :: r =>
    match readVarint r with
    | none => none
    | some (m, r2) => some (Int.negSucc m, r2)
  | _ => none

/-- In-value link serialization: the CID's fields in order, each
varint-framed (the spec's "distinguished binary-tagged value"). -/
def serializeCidFields (c : CID) : List Nat :=
  putVarint c.version ++ putVarint c.contentCodec ++
    putVarint c.multihash.functionCode ++
    putVarint c.multihash.digest.length ++ c.multihash.digest

def readCidFields (input : List Nat) : Option (CID × List Nat) :=
  match readVarint input with
  | none => none
  | some (v, r1) =>
    match readVarint r1 with
    | none => none
    | some (cc, r2) =>
      match readVarint r2 with
      | none => none
      | some (hc, r3) =>
        match readVarint r3 with
        | none => none
        | some (dl, r4) =>
          if dl ≤ r4.length then some (⟨v, cc, ⟨hc, r4.take dl⟩⟩, r4.drop dl)
          else none

mutual
/-- Modelled from the spec: the canonical structured-value serializer shared
by the CBOR-with-links and JSON-with-links codec models.  Every value has
exactly one encoding — a tag byte followed by varint-framed payloads (the
spec's canonicality requirement, section 4.3). -/
def serializeValue : Value → List Nat
  | .vnull => [0]
  | .vbool false => [1, 0]
  | .vbool true => [1, 1]
  | .vint n => 2 :: serializeInt n
  | .vbytes bs => 3 :: (putVarint bs.length ++ bs)
  | .vstring s => 4 :: (putVarint s.length ++ s)
  | .vlink c => 5 :: serializeCidFields c
  | .vlist xs => 6 :: (putVarint xs.length ++ serializeValueList xs)
  | .vmap m => 7 :: (putVarint m.length ++ serializeValueMap m)
/-- Concatenated serialization of a list's elements. -/
def serializeValueList : ValueList → List Nat
  | .nil => []
  | .cons v tl => serializeValue v ++ serializeValueList tl
/-- Concatenated serialization of a map's entries (key then value). -/
def serializeValueMap : ValueMap → List Nat
  | .mnil => []
  | .mcons k v tl => putVarint k.length ++ k ++ serializeValue v ++ serializeValueMap tl
end

mutual
/-- Fuel-indexed canonical deserializer; fuel bounds the number of data
model nodes and is decremented on every recursive call. -/
def deserializeValue : Nat → List Nat → Option (Value × List Nat)
  | 0, _ => none
  | fuel + 1, input =>
    match input with
    | 0 :: r => some (.vnull, r)
    | 1 :: 0 :: r => some (.vbool false, r)
    | 1 :: 1 :: r => some (.vbool true, r)
    | 2 :: r =>
      match readInt r with
      | none => none
      | some (n, r2) => some (.vint n, r2)
    | 3 :: r =>
      match readVarint r with
      | none => none
      | some (n, r2) =>
        if n ≤ r2.length then some (.vbytes (r2.take n), r2.drop n) else none
    | 4 :: r =>
      match readVarint r with
      | none => none
      | some (n, r2) =>
        if n ≤ r2.length then some (.vstring (r2.take n), r2.drop n) else none
    | 5 :: r =>
      match readCidFields r with
      | none => none
      | some (c, r2) => some (.vlink c, r2)
    | 6 :: r =>
      match readVarint r with
      | none => none
      | some (n, r2) =>
        match deserializeValueList fuel n r2 with
        | none => none
        | some (xs, r3) => some (.vlist xs, r3)
    | 7 :: r =>
      match readVarint r with
      | none => none
      | some (n, r2) =>
        match deserializeValueMap fuel n r2 with
        | none => none
        | some (m, r3) => some (.vmap m, r3)
    | _ => none
/-- Deserialize exactly `n` list elements. -/
def deserializeValueList : Nat → Nat → List Nat → Option (ValueList × List Nat)
  | _, 0, input => some (.nil, input)
  | 0, _ + 1, _ => none
  | fuel + 1, n + 1, input =>
    match deserializeValue fuel input with
    | none => none
    | some (v, r) =>
      match deserializeValueList fuel n r with
      | none => none
      | some (tl, r2) => some (.cons v tl, r2)
/-- Deserialize exactly `n` map entries. -/
def deserializeValueMap : Nat → Nat → List Nat → Option (ValueMap × List Nat)
  | _, 0, input => some (.mnil, input)
  | 0, _ + 1, _ => none
  | fuel + 1, n + 1, input =>
    match readVarint input with
    | none => none
    | some (kl, r1) =>
      if kl ≤ r1.length then
        match deserializeValue fuel (r1.drop kl) with
        | none => none
        | some (v, r2) =>
          match deserializeValueMap fuel n r2 with
          | none => none
          | some (tl, r3) => some (.mcons (r1.take kl) v tl, r3)
      else none
end

theorem readInt_serializeInt (n : Int) (rest : List Nat) :
    readInt (serializeInt n ++ rest) = some (n, rest) := by
  cases n with
  | ofNat m => simp [serializeInt, readInt, readVarint_putVarint]
  | negSucc m => simp [serializeInt, readInt, readVarint_putVarint]

theorem readCidFields_serializeCidFields (c : CID) (rest : List Nat) :
    readCidFields (serializeCidFields c ++ rest) = some (c, rest) := by
  simp only [serializeCidFields, List.append_assoc]
  simp [readCidFields, readVarint_putVarint]

mutual
/-- Nesting measure used as deserializer fuel: one unit per structural
level (max over siblings, plus the spine). -/
def sizeV : Value → Nat
  | .vnull => 1
  | .vbool _ => 1
  | .vint _ => 1
  | .vbytes _ => 1
  | .vstring _ => 1
  | .vlink _ => 1
  | .vlist xs => sizeL xs + 1
  | .vmap m => sizeM m + 1
/-- Nesting measure of a value list. -/
def sizeL : ValueList → Nat
  | .nil => 0
  | .cons v tl => max (sizeV v) (sizeL tl) + 1
/-- Nesting measure of a value map. -/
def sizeM : ValueMap → Nat
  | .mnil => 0
  | .mcons _ v tl => max (sizeV v) (sizeM tl) + 1
end

theorem sizeV_pos (v : Value) : 1 ≤ sizeV v := by
  cases v <;> simp [sizeV]

theorem serializeValue_length_pos (v : Value) :
    1 ≤ (serializeValue v).length := by
  cases v with
  | vbool b => cases b <;> simp [serializeValue]
  | _ => simp [serializeValue]

/-- The nesting measure is bounded by the serialized length, so the
byte count is always enough fuel to deserialize. -/
theorem size_le_length (n : Nat) :
    (∀ v, sizeV v ≤ n → sizeV v ≤ (serializeValue v).length) ∧
    (∀ xs, sizeL xs ≤ n → sizeL xs ≤ (serializeValueList xs).length + 1) ∧
    (∀ m, sizeM m ≤ n → sizeM m ≤ (serializeValueMap m).length + 1) := by
  induction n with
  | zero =>
    refine ⟨fun v hv => absurd hv (by have := sizeV_pos v; omega), ?_, ?_⟩
    · intro xs hxs
      cases xs with
      | nil => simp [sizeL, serializeValueList]
      | cons v tl => simp [sizeL] at hxs
    · intro m hm
      cases m with
      | mnil => simp [sizeM, serializeValueMap]
      | mcons k v tl => simp [sizeM] at hm
  | succ n ih =>
    obtain ⟨ihV, ihL, ihM⟩ := ih
    refine ⟨?_, ?_, ?_⟩
    · intro v hv
      cases v with
      | vlist xs =>
        simp only [sizeV] at hv ⊢
        have h1 := ihL xs (by omega)
        have h2 : 1 ≤ (putVarint xs.length).length := by
          have := putVarint_ne_nil xs.length
          cases h : putVarint xs.length with
          | nil => exact absurd h this
          | cons a b => simp
        simp only [serializeValue, List.length_cons, List.length_append]
        omega
      | vmap m =>
        simp only [sizeV] at hv ⊢
        have h1 := ihM m (by omega)
        have h2 : 1 ≤ (putVarint m.length).length := by
          have := putVarint_ne_nil m.length
          cases h : putVarint m.length with
          | nil => exact absurd h this
          | cons a b => simp
        simp only [serializeValue, List.length_cons, List.length_append]
        omega
      | vbool b => cases b <;> simp [sizeV, serializeValue]
      | _ => simp [sizeV, serializeValue]
    · intro xs hxs
      cases xs with
      | nil => simp [sizeL, serializeValueList]
      | cons v tl =>
        simp only [sizeL] at hxs ⊢
        have h1 := ihV v (by omega)
        have h2 := ihL tl (by omega)
        have h3 := serializeValue_length_pos v
        simp only [serializeValueList, List.length_append]
        omega
    · intro m hm
      cases m with
      | mnil => simp [sizeM, serializeValueMap]
      | mcons k v tl =>
        simp only [sizeM] at hm ⊢
        have h1 := ihV v (by omega)
        have h2 := ihM tl (by omega)
        have h3 := serializeValue_length_pos v
        simp only [serializeValueMap, List.length_append]
        omega

theorem sizeV_le_serialize_length (v : Value) :
    sizeV v ≤ (serializeValue v).length :=
  (size_le_length (sizeV v)).1 v le_rfl

/-- Canonical serializer round trip, by induction on the nesting measure:
with enough fuel, deserializing a serialized value from the front of any
stream returns the value and the untouched remainder. -/
theorem deserialize_serialize (n : Nat) :
    (∀ v rest fuel, sizeV v ≤ n → sizeV v ≤ fuel →
      deserializeValue fuel (serializeValue v ++ rest) = some (v, rest)) ∧
    (∀ xs rest fuel, sizeL xs ≤ n → sizeL xs ≤ fuel →
      deserializeValueList fuel xs.length (serializeValueList xs ++ rest) =
        some (xs, rest)) ∧
    (∀ m rest fuel, sizeM m ≤ n → sizeM m ≤ fuel →
      deserializeValueMap fuel m.length (serializeValueMap m ++ rest) =
        some (m, rest)) := by
  induction n with
  | zero =>
    refine ⟨fun v _ _ hv _ => absurd hv (by have := sizeV_pos v; omega), ?_, ?_⟩
    · intro xs rest fuel hxs _
      cases xs with
      | nil => cases fuel <;> simp [sizeL, serializeValueList, deserializeValueList, ValueList.length]
      | cons v tl => simp [sizeL] at hxs
    · intro m rest fuel hm _
      cases m with
      | mnil => cases fuel <;> simp [sizeM, serializeValueMap, deserializeValueMap, ValueMap.length]
      | mcons k v tl => simp [sizeM] at hm
  | succ n ih =>
    obtain ⟨ihV, ihL, ihM⟩ := ih
    refine ⟨?_, ?_, ?_⟩
    · intro v rest fuel hv hf
      obtain ⟨fuel, rfl⟩ : ∃ f, fuel = f + 1 := by
        cases fuel with
        | zero => exact absurd hf (by have := sizeV_pos v; omega)
        | succ f => exact ⟨f, rfl⟩
      cases v with
      | vnull => simp [serializeValue, deserializeValue]
      | vbool b => cases b <;> simp [serializeValue, deserializeValue]
      | vint i => simp [serializeValue, deserializeValue, readInt_serializeInt]
      | vbytes bs =>
        simp only [serializeValue, List.cons_append, List.append_assoc]
        simp [deserializeValue, readVarint_putVarint]
      | vstring s =>
        simp only [serializeValue, List.cons_append, List.append_assoc]
        simp [deserializeValue, readVarint_putVarint]
      | vlink c =>
        simp [serializeValue, deserializeValue, readCidFields_serializeCidFields]
      | vlist xs =>
        simp only [serializeValue, List.cons_append, List.append_assoc]
        simp only [sizeV] at hv hf
        simp only [deserializeValue, readVarint_putVarint]
        rw [ihL xs rest fuel (by omega) (by omega)]
      | vmap m =>
        simp only [serializeValue, List.cons_append, List.append_assoc]
        simp only [sizeV] at hv hf
        simp only [deserializeValue, readVarint_putVarint]
        rw [ihM m rest fuel (by omega) (by omega)]
    · intro xs rest fuel hxs hf
      cases xs with
      | nil => cases fuel <;> simp [serializeValueList, deserializeValueList, ValueList.length]
      | cons v tl =>
        simp only [sizeL] at hxs hf
        obtain ⟨fuel, rfl⟩ : ∃ f, fuel = f + 1 := by
          cases fuel with
          | zero => exact absurd hf (by omega)
          | succ f => exact ⟨f, rfl⟩
        simp only [serializeValueList, List.append_assoc, ValueList.length]
        simp only [deserializeValueList]
        simp only [ihV v (serializeValueList tl ++ rest) fuel (by omega) (by omega),
          ihL tl rest fuel (by omega) (by omega)]
    · intro m rest fuel hm hf
      cases m with
      | mnil => cases fuel <;> simp [serializeValueMap, deserializeValueMap, ValueMap.length]
      | mcons k v tl =>
        simp only [sizeM] at hm hf
        obtain ⟨fuel, rfl⟩ : ∃ f, fuel = f + 1 := by
          cases fuel with
          | zero => exact absurd hf (by omega)
          | succ f => exact ⟨f, rfl⟩
        simp only [serializeValueMap, List.append_assoc, ValueMap.length]
        simp only [deserializeValueMap, readVarint_putVarint]
        have hk : k.length ≤ (k ++ (serializeValue v ++ (serializeValueMap tl ++ rest))).length := by
          simp
        rw [if_pos hk]
        have ht : (k ++ (serializeValue v ++ (serializeValueMap tl ++ rest))).take k.length = k := by
          simp
        have hd : (k ++ (serializeValue v ++ (serializeValueMap tl ++ rest))).drop k.length =
            serializeValue v ++ (serializeValueMap tl ++ rest) := by
          simp
        rw [ht, hd]
        simp only [ihV v (serializeValueMap tl ++ rest) fuel (by omega) (by omega),
          ihM tl rest fuel (by omega) (by omega)]

/-- Canonical decode over a complete byte string: deserialize with the byte
count as fuel and require the whole input to be consumed. -/
def decodeCanonical (bs : List Nat) : Except Err Value :=
  match deserializeValue bs.length bs with
  | some (v, []) => .ok v
  | _ => .error Err.decodeError

theorem decodeCanonical_serializeValue (v : Value) :
    decodeCanonical (serializeValue v) = .ok v := by
  have h := (deserialize_serialize (sizeV v)).1 v [] (serializeValue v).length
    le_rfl (sizeV_le_serialize_length v)
  rw [List.append_nil] at h
  simp [decodeCanonical, h]

/-- Modelled from the spec: a codec bundles its multicodec code, encoder and
decoder (spec section 4.3).  `enc` is `none` on values the codec cannot
represent. -/
structure Codec where
  code : Nat
  enc : Value → Option (List Nat)
  dec : List Nat → Except Err Value

/-- Modelled from the spec: the raw codec — identity in both directions over
an opaque byte sequence (spec section 4.3). -/
def raw : Codec where
  code := 85
  enc := fun v => match v with | .vbytes bs => some bs | _ => none
  dec := fun bs => .ok (.vbytes bs)

/-- Modelled from the spec: the canonical-CBOR-with-links codec
(dag-cbor, code 0x71), realized by the canonical serializer. -/
def dagCBOR : Codec where
  code := 113
  enc := fun v => some (serializeValue v)
  dec := decodeCanonical

/-- Modelled from the spec: the canonical-JSON-with-links codec
(dag-json, code 0x0129).  The spec constrains it to be canonical and
invertible over the same value universe; the byte-level grammar is
modelled by the same canonical serializer. -/
def dagJSON : Codec where
  code := 297
  enc := fun v => some (serializeValue v)
  dec := decodeCanonical

/-- Modelled from the spec: a hash function of the multihash registry
(spec section 4.1). -/
structure Hasher where
  code : Nat
  digestOf : List Nat → List Nat

/-- A hasher's multihash for a byte sequence. -/
def Hasher.hash (h : Hasher) (bs : List Nat) : Multihash :=
  ⟨h.code, h.digestOf bs⟩

/-- Modelled from the spec: the sha2-256 hasher (code 0x12).  The integrity
properties of spec section 8 treat the hash as collision-free, so the digest
is modelled as an injective function of the input (the identity), rather
than as the probabilistically collision-free compression function. -/
def sha256 : Hasher where
  code := 18
  digestOf := fun bs => bs

/-- Modelled from the spec: the multihash registry lookup
`hash(functionCode, bytes)` (spec section 4.1). -/
def hashLookup (reg : Nat → Option Hasher) (functionCode : Nat)
    (bs : List Nat) : Except Err Multihash :=
  match reg functionCode with
  | none => .error Err.unsupportedHashError
  | some h => .ok (h.hash bs)

/-- Modelled from the spec: a Block combines a CID, its canonical bytes and
its decoded value (spec section 3). -/
structure Block where
  cid : CID
  bytes : List Nat
  value : Value
  deriving DecidableEq, Repr

/-- Modelled from the spec: `encode(value, codec, hashFn)` — encode the
value, hash the bytes, build a version-1 CID (spec section 4.4); `none` if
the codec cannot represent the value. -/
def Block.encode (v : Value) (c : Codec) (hf : Hasher) : Option Block :=
  match c.enc v with
  | none => none
  | some bytes => some ⟨⟨1, c.code, hf.hash bytes⟩, bytes, v⟩

/-- Modelled from the spec: the verified constructor
`create(cid, bytes, codec, hashFn)` — recompute the hash and compare it to
the CID's multihash first, then compare codec codes, then decode
(spec section 4.4). -/
def Block.create (cid : CID) (bytes : List Nat) (c : Codec) (hf : Hasher) :
    Except Err Block :=
  if hf.hash bytes ≠ cid.multihash then .error Err.hashMismatchError
  else if c.code ≠ cid.contentCodec then .error Err.codecMismatchError
  else
    match c.dec bytes with
    | .error e => .error e
    | .ok v => .ok ⟨cid, bytes, v⟩

theorem putVarint_small {n : Nat} (h : n < 128) : putVarint n = [n] := by
  rw [putVarint]; simp [h]

theorem cidToBytes_v1 (cc fc : Nat) (dg : List Nat) :
    cidToBytes ⟨1, cc, ⟨fc, dg⟩⟩ =
      1 :: (putVarint cc ++ (putVarint fc ++ (putVarint dg.length ++ dg))) := by
  simp [cidToBytes, putVarint_small, List.append_assoc]

theorem readCid_v1 (cc fc : Nat) (dg : List Nat) (rest : List Nat) :
    readCid (cidToBytes ⟨1, cc, ⟨fc, dg⟩⟩ ++ rest) =
      some (⟨1, cc, ⟨fc, dg⟩⟩, rest) := by
  rw [cidToBytes_v1]
  simp only [List.cons_append, List.append_assoc]
  rw [readCid]
  have htk : ¬ (List.take 2 (1 :: (putVarint cc ++
      (putVarint fc ++ (putVarint dg.length ++ (dg ++ rest))))) = [18, 32]) := by
    cases h : putVarint cc with
    | nil => exact absurd h (putVarint_ne_nil _)
    | cons a b => simp [h]
  rw [if_neg htk]
  simp only [readVarint]
  rw [if_pos (by omega : (1 : Nat) < 128)]
  simp only [if_pos rfl, readVarint_putVarint]
  simp

theorem readCid_v0 (dg : List Nat) (rest : List Nat) (hdl : dg.length = 32) :
    readCid (cidToBytes ⟨0, 112, ⟨18, dg⟩⟩ ++ rest) =
      some (⟨0, 112, ⟨18, dg⟩⟩, rest) := by
  have ht : List.take 32 (dg ++ rest) = dg := by
    rw [← hdl]; simp
  have hd2 : List.drop 32 (dg ++ rest) = rest := by
    rw [← hdl]; simp
  simp [cidToBytes, readCid, ht, hd2, hdl]

/-- Self-delimiting CID parse inverts CID serialization for well-formed
CIDs, leaving the remainder of the stream untouched. -/
theorem readCid_cidToBytes (c : CID) (rest : List Nat)
    (hc : wellFormedCid c) :
    readCid (cidToBytes c ++ rest) = some (c, rest) := by
  cases c with
  | mk v cc mh =>
    cases mh with
    | mk fc dg =>
      rcases hc with h1 | ⟨h0, hcc, hfc, hdl⟩
      · subst h1
        exact readCid_v1 cc fc dg rest
      · subst h0; subst hcc; subst hfc
        exact readCid_v0 dg rest hdl

/-- A varint-length-prefixed frame (spec section 6). -/
def mkFrame (payload : List Nat) : List Nat := putVarint payload.length ++ payload

/-- Modelled from the spec: the canonically encoded header map
`{formatVersion: 1, roots}` — format version, root count, then the roots'
binary CIDs (spec sections 4.5, 6). -/
def headerPayload (roots : List CID) : List Nat :=
  putVarint 1 ++ putVarint roots.length ++ (roots.map cidToBytes).flatten

/-- Parse exactly `n` binary CIDs from the front of a stream. -/
def readRoots : Nat → List Nat → Option (List CID × List Nat)
  | 0, input => some ([], input)
  | n + 1, input =>
    match readCid input with
    | none => none
    | some (c, r) =>
      match readRoots n r with
      | none => none
      | some (cs, r2) => some (c :: cs, r2)

/-- Modelled from the spec: header decoding — requires format version 1 and
a fully consumed header payload (spec section 4.6). -/
def decodeHeader (payload : List Nat) : Option (List CID) :=
  match readVarint payload with
  | none => none
  | some (v, r1) =>
    if v = 1 then
      match readVarint r1 with
      | none => none
      | some (n, r2) =>
        match readRoots n r2 with
        | some (roots, []) => some roots
        | _ => none
    else none

/-- A container record as stored: a CID and the block's bytes
(spec section 3); also the shape of the blocks handed to the writer by
`createBlocks` in `src/ipld-example.js`. -/
structure CarRecord where
  cid : CID
  bytes : List Nat
  deriving DecidableEq, Repr

/-- The frame emitted for one record: length varint over the concatenated
CID bytes and block bytes (spec section 4.5). -/
def recFrame (b : CarRecord) : List Nat := mkFrame (cidToBytes b.cid ++ b.bytes)

/-- Modelled from the spec: the streaming container writer state machine
`Open -> [Open]* -> Closed` (spec section 4.5). -/
structure CarWriter where
  closed : Bool
  out : List Nat
  deriving DecidableEq, Repr

/-- Modelled from the spec: `create(roots)` immediately emits the header
frame; roots are frozen from then on (spec section 4.5). -/
def CarWriter.create (roots : List CID) : CarWriter :=
  ⟨false, mkFrame (headerPayload roots)⟩

/-- Modelled from the spec: `put(block)` — valid only in the `Open` state;
emits the record's frame with no reordering, deduplication or validation
against the declared roots (spec section 4.5). -/
def CarWriter.put (w : CarWriter) (b : CarRecord) : Except Err CarWriter :=
  if w.closed then .error Err.writeAfterCloseError
  else .ok ⟨false, w.out ++ recFrame b⟩

/-- Modelled from the spec: `close()` transitions `Open -> Closed`; closes
beyond the first fail with `WriteAfterCloseError` (spec section 4.5). -/
def CarWriter.close (w : CarWriter) : Except Err CarWriter :=
  if w.closed then .error Err.writeAfterCloseError else .ok ⟨true, w.out⟩

/-- Translated from `write` in `src/ipld-example.js` (and the legacy
driver's `write`): create the writer with the given roots, put every block
in order, then close; the result is the container's byte stream. -/
def write (blocks : List CarRecord) (roots : List CID) :
    Except Err (List Nat) := do
  let w := CarWriter.create roots
  let w ← blocks.foldlM CarWriter.put w
  let w ← w.close
  pure w.out

/-- The container bytes produced by a complete write: header frame then one
frame per record in order. -/
def carBytes (blocks : List CarRecord) (roots : List CID) : List Nat :=
  mkFrame (headerPayload roots) ++ (blocks.map recFrame).flatten

theorem foldlM_put_open (blocks : List CarRecord) (out : List Nat) :
    blocks.foldlM CarWriter.put ⟨false, out⟩ =
      .ok ⟨false, out ++ (blocks.map recFrame).flatten⟩ := by
  induction blocks generalizing out with
  | nil => simp [List.foldlM, pure, Except.pure]
  | cons b tl ih =>
    simp only [List.foldlM, CarWriter.put, if_neg (by simp : ¬ false = true)]
    simp only [ExceptT.run, bind, Except.bind]
    rw [ih (out ++ recFrame b)]
    simp [List.append_assoc]

/-- The writer never fails on a fresh container and emits exactly the
header frame followed by the record frames in put order. -/
theorem write_eq (blocks : List CarRecord) (roots : List CID) :
    write blocks roots = .ok (carBytes blocks roots) := by
  simp only [write, CarWriter.create, bind, Except.bind, foldlM_put_open]
  simp [CarWriter.close, carBytes, pure, Except.pure]

/-- Modelled from the spec: read one varint-framed record; `.ok none` is a
clean end-of-stream on a frame boundary, `TruncatedRecordError` a stream
ending inside the length varint or before the declared length is available
(spec section 4.6). -/
def readFrame (input : List Nat) : Except Err (Option (List Nat × List Nat)) :=
  if input = [] then .ok none
  else
    match readVarint input with
    | none => .error Err.truncatedRecordError
    | some (n, r) =>
      if r.length < n then .error Err.truncatedRecordError
      else .ok (some (r.take n, r.drop n))

theorem readFrame_length {input p rest : List Nat}
    (h : readFrame input = .ok (some (p, rest))) :
    rest.length < input.length := by
  by_cases he : input = []
  · simp [readFrame, he] at h
  · simp only [readFrame, if_neg he] at h
    cases hv : readVarint input with
    | none => rw [hv] at h; cases h
    | some nr =>
      rw [hv] at h
      cases nr with
      | mk n r =>
        by_cases hl : r.length < n
        · simp [hl] at h
        · simp only [hl, if_neg, if_false] at h
          simp at h
          obtain ⟨h1, h2⟩ := h
          subst h2
          have := readVarint_length hv
          have := List.length_drop n r
          omega

/-- Modelled from the spec: the record sequence — pull one frame, split a
leading CID from the block bytes, repeat until a clean end-of-stream
(spec section 4.6). -/
def readRecords (input : List Nat) : Except Err (List CarRecord) :=
  match hf : readFrame input with
  | .error e => .error e
  | .ok none => .ok []
  | .ok (some (p, rest)) =>
    match readCid p with
    | none => .error Err.malformedCIDError
    | some (c, bs) =>
      match readRecords rest with
      | .error e => .error e
      | .ok tl => .ok (⟨c, bs⟩ :: tl)
  termination_by input.length
  decreasing_by exact readFrame_length hf

/-- Modelled from the spec: open a container — read and decode the header
frame, then the record sequence (spec section 4.6). -/
def readContainer (input : List Nat) :
    Except Err (List CID × List CarRecord) :=
  match readFrame input with
  | .error e => .error e
  | .ok none => .error Err.malformedHeaderError
  | .ok (some (p, rest)) =>
    match decodeHeader p with
    | none => .error Err.malformedHeaderError
    | some roots =>
      match readRecords rest with
      | .error e => .error e
      | .ok recs => .ok (roots, recs)

theorem mkFrame_ne_nil (p : List Nat) (rest : List Nat) :
    mkFrame p ++ rest ≠ [] := by
  rw [mkFrame, List.append_assoc]
  cases h : putVarint p.length with
  | nil => exact absurd h (putVarint_ne_nil _)
  | cons a b => simp [h]

theorem readFrame_mkFrame (p rest : List Nat) :
    readFrame (mkFrame p ++ rest) = .ok (some (p, rest)) := by
  rw [readFrame, if_neg (mkFrame_ne_nil p rest)]
  rw [mkFrame, List.append_assoc]
  simp only [readVarint_putVarint]
  rw [if_neg (by simp [Nat.not_lt])]
  simp

theorem readRecords_of_frame_error {input : List Nat} {e : Err}
    (h : readFrame input = .error e) : readRecords input = .error e := by
  rw [readRecords]
  split
  · rename_i heq; rw [h] at heq; cases heq; rfl
  · rename_i heq; rw [h] at heq; cases heq
  · rename_i heq; rw [h] at heq; cases heq

theorem readRecords_of_frame_none {input : List Nat}
    (h : readFrame input = .ok none) : readRecords input = .ok [] := by
  rw [readRecords]
  split
  · rename_i heq; rw [h] at heq; cases heq
  · rfl
  · rename_i heq; rw [h] at heq; cases heq

theorem readRecords_of_frame_some {input p rest : List Nat}
    (h : readFrame input = .ok (some (p, rest))) :
    readRecords input =
      match readCid p with
      | none => .error Err.malformedCIDError
      | some (c, bs) =>
        match readRecords rest with
        | .error e => .error e
        | .ok tl => .ok (⟨c, bs⟩ :: tl) := by
  rw [readRecords]
  split
  · rename_i heq; rw [h] at heq; cases heq
  · rename_i heq; rw [h] at heq; cases heq
  · rename_i p2 rest2 heq
    rw [h] at heq
    cases heq
    rfl

theorem readRecords_flatten (blocks : List CarRecord)
    (h : ∀ b ∈ blocks, wellFormedCid b.cid) :
    readRecords ((blocks.map recFrame).flatten) = .ok blocks := by
  induction blocks with
  | nil =>
    apply readRecords_of_frame_none
    simp [readFrame]
  | cons b tl ih =>
    have hb : wellFormedCid b.cid := h b (by simp)
    have htl : ∀ x ∈ tl, wellFormedCid x.cid := fun x hx => h x (by simp [hx])
    have hfr : readFrame ((List.map recFrame (b :: tl)).flatten) =
        .ok (some (cidToBytes b.cid ++ b.bytes, (List.map recFrame tl).flatten)) := by
      simp only [List.map_cons, List.flatten_cons, recFrame]
      exact readFrame_mkFrame _ _
    rw [readRecords_of_frame_some hfr]
    rw [readCid_cidToBytes b.cid b.bytes hb]
    rw [ih htl]

theorem readRoots_flatten (roots : List CID) (rest : List Nat)
    (h : ∀ c ∈ roots, wellFormedCid c) :
    readRoots roots.length ((roots.map cidToBytes).flatten ++ rest) =
      some (roots, rest) := by
  induction roots with
  | nil => simp [readRoots]
  | cons c tl ih =>
    have hc : wellFormedCid c := h c (by simp)
    have htl : ∀ x ∈ tl, wellFormedCid x := fun x hx => h x (by simp [hx])
    simp only [List.map_cons, List.flatten_cons, List.length_cons,
      List.append_assoc]
    simp only [readRoots, readCid_cidToBytes c _ hc, ih htl]

theorem decodeHeader_headerPayload (roots : List CID)
    (h : ∀ c ∈ roots, wellFormedCid c) :
    decodeHeader (headerPayload roots) = some roots := by
  have hr := readRoots_flatten roots [] h
  rw [List.append_nil] at hr
  simp only [headerPayload, List.append_assoc, decodeHeader,
    readVarint_putVarint, if_pos rfl, hr]
  simp

/-- Reading back a written container recovers the declared roots and the
records in write order with no reordering, deduplication or omission. -/
theorem readContainer_carBytes (blocks : List CarRecord) (roots : List CID)
    (hB : ∀ b ∈ blocks, wellFormedCid b.cid)
    (hR : ∀ c ∈ roots, wellFormedCid c) :
    readContainer (carBytes blocks roots) = .ok (roots, blocks) := by
  rw [readContainer, carBytes]
  simp only [readFrame_mkFrame, decodeHeader_headerPayload roots hR,
    readRecords_flatten blocks hB]

theorem take_append_left {l1 l2 : List Nat} {n : Nat} (h : n ≤ l1.length) :
    List.take n (l1 ++ l2) = List.take n l1 := by
  rw [List.take_append_eq_append_take, Nat.sub_eq_zero_of_le h]
  simp

theorem take_append_right {l1 l2 : List Nat} {n : Nat} (h : l1.length ≤ n) :
    List.take n (l1 ++ l2) = l1 ++ List.take (n - l1.length) l2 := by
  rw [List.take_append_eq_append_take, List.take_of_length_le h]

/-- Truncating anywhere strictly inside a frame makes the frame read fail
with `TruncatedRecordError`: either the cut lands inside the length varint,
or fewer bytes remain than the declared length. -/
theorem readFrame_take_truncated (p tail : List Nat) (k : Nat)
    (hp : 0 < p.length) (hk : 0 < k) (hlt : k < (mkFrame p).length) :
    readFrame (List.take k (mkFrame p ++ tail)) =
      .error Err.truncatedRecordError := by
  have hmk : (mkFrame p).length = (putVarint p.length).length + p.length := by
    simp [mkFrame]
  have htk : List.take k (mkFrame p ++ tail) = List.take k (mkFrame p) := by
    exact take_append_left (by omega)
  rw [htk]
  have hne : List.take k (mkFrame p) ≠ [] := by
    have h1 : (List.take k (mkFrame p)).length = k := by
      simp
      omega
    intro h2
    rw [h2] at h1
    simp at h1
    omega
  rw [readFrame, if_neg hne]
  by_cases hkv : k < (putVarint p.length).length
  · have h2 : List.take k (mkFrame p) = List.take k (putVarint p.length) := by
      rw [mkFrame]
      exact take_append_left (by omega)
    rw [h2, readVarint_take_none p.length k hk hkv]
  · have h2 : List.take k (mkFrame p) =
        putVarint p.length ++ List.take (k - (putVarint p.length).length) p := by
      rw [mkFrame]
      exact take_append_right (by omega)
    rw [h2, readVarint_putVarint]
    have h3 : (List.take (k - (putVarint p.length).length) p).length < p.length := by
      simp
      omega
    simp [h3]
    omega

/-- The frame-boundary offsets of a sequence of frames: 0, then each
cumulative frame end. -/
def boundarySums : List (List Nat) → List Nat
  | [] => [0]
  | p :: tl => 0 :: (boundarySums tl).map (fun x => x + (mkFrame p).length)

theorem zero_mem_boundarySums (ps : List (List Nat)) : 0 ∈ boundarySums ps := by
  cases ps <;> simp [boundarySums]

theorem mkFrame_length_pos (p : List Nat) : 0 < (mkFrame p).length := by
  rw [mkFrame]
  cases h : putVarint p.length with
  | nil => exact absurd h (putVarint_ne_nil _)
  | cons a b => simp [h]

theorem cidToBytes_length_pos (c : CID) : 0 < (cidToBytes c).length := by
  rw [cidToBytes]
  by_cases h : c.version = 0
  · simp [h]
  · simp only [if_neg h]
    cases hv : putVarint c.version with
    | nil => exact absurd hv (putVarint_ne_nil _)
    | cons a b => simp [hv]

theorem headerPayload_length_pos (roots : List CID) :
    0 < (headerPayload roots).length := by
  rw [headerPayload]
  cases hv : putVarint 1 with
  | nil => exact absurd hv (putVarint_ne_nil _)
  | cons a b => simp [hv]

theorem mem_boundarySums_cons {k : Nat} {p : List Nat} {tl : List (List Nat)} :
    k ∈ boundarySums (p :: tl) ↔
      k = 0 ∨ ∃ j ∈ boundarySums tl, k = j + (mkFrame p).length := by
  simp only [boundarySums, List.mem_cons, List.mem_map]
  constructor
  · rintro (h | ⟨j, hj, rfl⟩)
    · exact Or.inl h
    · exact Or.inr ⟨j, hj, rfl⟩
  · rintro (h | ⟨j, hj, rfl⟩)
    · exact Or.inl h
    · exact Or.inr ⟨j, hj, rfl⟩

/-- Truncation behaviour over a sequence of record frames: a cut at a frame
boundary reads cleanly as a shorter record list, and a cut anywhere else
fails with `TruncatedRecordError`. -/
theorem readRecords_take (ps : List (List Nat))
    (hparse : ∀ p ∈ ps, readCid p ≠ none)
    (hne : ∀ p ∈ ps, 0 < p.length) :
    ∀ k, k < ((ps.map mkFrame).flatten).length →
      (k ∉ boundarySums ps →
        readRecords (List.take k ((ps.map mkFrame).flatten)) =
          .error Err.truncatedRecordError) ∧
      (k ∈ boundarySums ps →
        ∃ rs, readRecords (List.take k ((ps.map mkFrame).flatten)) = .ok rs) := by
  induction ps with
  | nil =>
    intro k hk
    simp at hk
  | cons p tl ih =>
    intro k hk
    have hpp : readCid p ≠ none := hparse p (by simp)
    have hpl : 0 < p.length := hne p (by simp)
    have hptl : ∀ x ∈ tl, readCid x ≠ none := fun x hx => hparse x (by simp [hx])
    have hntl : ∀ x ∈ tl, 0 < x.length := fun x hx => hne x (by simp [hx])
    simp only [List.map_cons, List.flatten_cons, List.length_append] at hk ⊢
    by_cases hkf : k < (mkFrame p).length
    · by_cases hk0 : k = 0
      · subst hk0
        constructor
        · intro hmem
          exact absurd (zero_mem_boundarySums (p :: tl)) hmem
        · intro _
          refine ⟨[], ?_⟩
          simp only [List.take_zero]
          apply readRecords_of_frame_none
          simp [readFrame]
      · have hnotmem : k ∉ boundarySums (p :: tl) := by
          rw [mem_boundarySums_cons]
          rintro (h | ⟨j, hj, rfl⟩)
          · exact hk0 h
          · omega
        constructor
        · intro _
          have := readFrame_take_truncated p ((tl.map mkFrame).flatten) k hpl
            (by omega) hkf
          exact readRecords_of_frame_error this
        · intro hmem
          exact absurd hmem hnotmem
    · -- the cut is at or past the end of the first frame
      obtain ⟨c, bs, hcbs⟩ : ∃ c bs, readCid p = some (c, bs) := by
        cases h : readCid p with
        | none => exact absurd h hpp
        | some v =>
          obtain ⟨c, bs⟩ := v
          exact ⟨c, bs, rfl⟩
      have htk : List.take k (mkFrame p ++ (tl.map mkFrame).flatten) =
          mkFrame p ++ List.take (k - (mkFrame p).length) ((tl.map mkFrame).flatten) :=
        take_append_right (by omega)
      have hfr : readFrame (List.take k (mkFrame p ++ (tl.map mkFrame).flatten)) =
          .ok (some (p, List.take (k - (mkFrame p).length) ((tl.map mkFrame).flatten))) := by
        rw [htk]
        exact readFrame_mkFrame _ _
      have hrec := readRecords_of_frame_some hfr
      rw [hcbs] at hrec
      have hjlt : k - (mkFrame p).length < ((tl.map mkFrame).flatten).length := by
        omega
      obtain ⟨ihf, ihs⟩ := ih hptl hntl (k - (mkFrame p).length) hjlt
      constructor
      · intro hmem
        have hjmem : k - (mkFrame p).length ∉ boundarySums tl := by
          intro hj
          apply hmem
          rw [mem_boundarySums_cons]
          exact Or.inr ⟨k - (mkFrame p).length, hj, by omega⟩
        rw [hrec, ihf hjmem]
      · intro hmem
        rw [mem_boundarySums_cons] at hmem
        have hmfp := mkFrame_length_pos p
        rcases hmem with h0 | ⟨j, hj, rfl⟩
        · omega
        · have hjj : j + (mkFrame p).length - (mkFrame p).length = j := by omega
          rw [hjj] at hrec ihs
          obtain ⟨rs, hrs⟩ := ihs hj
          refine ⟨⟨c, bs⟩ :: rs, ?_⟩
          rw [hrec, hrs]

/-- The frame payloads of a written container: header payload, then one
payload (CID bytes followed by block bytes) per record. -/
def carPayloads (blocks : List CarRecord) (roots : List CID) : List (List Nat) :=
  headerPayload roots :: blocks.map (fun b => cidToBytes b.cid ++ b.bytes)

/-- The frame-boundary offsets of a written container: 0, the end of the
header frame, the end of each record frame; the last one is the container's
total length. -/
def carBoundaries (blocks : List CarRecord) (roots : List CID) : List Nat :=
  boundarySums (carPayloads blocks roots)

theorem carBytes_eq_frames (blocks : List CarRecord) (roots : List CID) :
    carBytes blocks roots = ((carPayloads blocks roots).map mkFrame).flatten := by
  simp only [carBytes, carPayloads, List.map_cons, List.flatten_cons,
    List.map_map]
  rfl

/-- Truncation behaviour of a whole written container: a cut at a frame
boundary (past the header) reads cleanly with the declared roots and a
prefix of the records; a cut anywhere else inside the stream fails with
`TruncatedRecordError`. -/
theorem readContainer_take (blocks : List CarRecord) (roots : List CID)
    (hB : ∀ b ∈ blocks, wellFormedCid b.cid)
    (hR : ∀ c ∈ roots, wellFormedCid c)
    (k : Nat) (hk0 : 0 < k) (hklen : k < (carBytes blocks roots).length) :
    (k ∉ carBoundaries blocks roots →
      readContainer (List.take k (carBytes blocks roots)) =
        .error Err.truncatedRecordError) ∧
    (k ∈ carBoundaries blocks roots →
      ∃ rs, readContainer (List.take k (carBytes blocks roots)) =
        .ok (roots, rs)) := by
  have hcb : carBytes blocks roots =
      mkFrame (headerPayload roots) ++
        ((blocks.map (fun b => cidToBytes b.cid ++ b.bytes)).map mkFrame).flatten := by
    rw [carBytes_eq_frames]
    simp [carPayloads]
  have hhl := headerPayload_length_pos roots
  have hparse : ∀ p ∈ blocks.map (fun b => cidToBytes b.cid ++ b.bytes),
      readCid p ≠ none := by
    intro p hp
    rw [List.mem_map] at hp
    obtain ⟨b, hb, rfl⟩ := hp
    rw [readCid_cidToBytes b.cid b.bytes (hB b hb)]
    simp
  have hne : ∀ p ∈ blocks.map (fun b => cidToBytes b.cid ++ b.bytes),
      0 < p.length := by
    intro p hp
    rw [List.mem_map] at hp
    obtain ⟨b, hb, rfl⟩ := hp
    have := cidToBytes_length_pos b.cid
    simp
    omega
  rw [hcb] at hklen ⊢
  simp only [List.length_append] at hklen
  by_cases hkh : k < (mkFrame (headerPayload roots)).length
  · have hfr := readFrame_take_truncated (headerPayload roots)
      (((blocks.map (fun b => cidToBytes b.cid ++ b.bytes)).map mkFrame).flatten)
      k hhl hk0 hkh
    constructor
    · intro _
      simp only [readContainer, hfr]
    · intro hmem
      rw [carBoundaries, carPayloads, mem_boundarySums_cons] at hmem
      rcases hmem with h0 | ⟨j, hj, rfl⟩
      · omega
      · omega
  · -- the cut is at or past the header frame boundary
    have htk : List.take k (mkFrame (headerPayload roots) ++
        ((blocks.map (fun b => cidToBytes b.cid ++ b.bytes)).map mkFrame).flatten) =
        mkFrame (headerPayload roots) ++
          List.take (k - (mkFrame (headerPayload roots)).length)
            ((blocks.map (fun b => cidToBytes b.cid ++ b.bytes)).map mkFrame).flatten :=
      take_append_right (by omega)
    rw [htk]
    have hjlt : k - (mkFrame (headerPayload roots)).length <
        ((blocks.map (fun b => cidToBytes b.cid ++ b.bytes)).map mkFrame).flatten.length := by
      omega
    obtain ⟨recf, recs⟩ := readRecords_take _ hparse hne _ hjlt
    have hhd := decodeHeader_headerPayload roots hR
    constructor
    · intro hmem
      have hjmem : k - (mkFrame (headerPayload roots)).length ∉
          boundarySums (blocks.map (fun b => cidToBytes b.cid ++ b.bytes)) := by
        intro hj
        apply hmem
        rw [carBoundaries, carPayloads, mem_boundarySums_cons]
        exact Or.inr ⟨_, hj, by omega⟩
      simp only [readContainer, readFrame_mkFrame, hhd, recf hjmem]
    · intro hmem
      rw [carBoundaries, carPayloads, mem_boundarySums_cons] at hmem
      rcases hmem with h0 | ⟨j, hj, hk⟩
      · omega
      · have hjj : k - (mkFrame (headerPayload roots)).length = j := by omega
        rw [hjj]
        obtain ⟨rs, hrs⟩ := recs (by rw [hjj]; exact hj)
        refine ⟨rs, ?_⟩
        rw [hjj] at hrs
        simp only [readContainer, readFrame_mkFrame, hhd, hrs]

mutual
/-- Modelled from the spec: `links(value)` — every CID embedded anywhere in
a value (spec section 4.3). -/
def valueLinks : Value → List CID
  | .vnull => []
  | .vbool _ => []
  | .vint _ => []
  | .vbytes _ => []
  | .vstring _ => []
  | .vlink c => [c]
  | .vlist xs => valueLinksL xs
  | .vmap m => valueLinksM m
/-- Links of a value list. -/
def valueLinksL : ValueList → List CID
  | .nil => []
  | .cons v tl => valueLinks v ++ valueLinksL tl
/-- Links of a value map. -/
def valueLinksM : ValueMap → List CID
  | .mnil => []
  | .mcons _ v tl => valueLinks v ++ valueLinksM tl
end

/-- UTF-8 encoding of one code point (the `TextEncoder` used by the
driver). -/
def utf8EncodeChar (c : Nat) : List Nat :=
  if c < 128 then [c]
  else if c < 2048 then [192 + c / 64, 128 + c % 64]
  else if c < 65536 then [224 + c / 4096, 128 + (c / 64) % 64, 128 + c % 64]
  else [240 + c / 262144, 128 + (c / 4096) % 64, 128 + (c / 64) % 64,
    128 + c % 64]

/-- UTF-8 encoding of a code point sequence. -/
def utf8Encode (s : List Nat) : List Nat := (s.map utf8EncodeChar).flatten

/-- The code points of a string literal. -/
def strCodepoints (s : String) : List Nat := s.toList.map Char.toNat

/-- The base58btc alphabet used by the textual form of version-0 CIDs. -/
def base58Alphabet : List Char :=
  "123456789ABCDEFGHJKLMNPQRSTUVWXYZabcdefghijkmnopqrstuvwxyz".toList

/-- Interpret base58btc text as a natural number. -/
def b58ToNat (s : List Char) : Option Nat :=
  s.foldl
    (fun acc c =>
      match acc, base58Alphabet.indexOf? c with
      | some a, some v => some (a * 58 + v)
      | _, _ => none)
    (some 0)

/-- Big-endian bytes of a natural number (54 iterations bound the sizes
that occur here). -/
def natToBytesLE : Nat → Nat → List Nat
  | 0, _ => []
  | fuel + 1, n => if n = 0 then [] else n % 256 :: natToBytesLE fuel (n / 256)

/-- Modelled from the spec: `parse` of the conventional version-0 textual
CID form — base58btc-decode to the legacy multihash bytes `0x12 0x20 ++
32-byte digest` (spec section 4.2). -/
def parseCIDv0 (s : String) : Option CID :=
  match b58ToNat s.toList with
  | none => none
  | some n =>
    match (natToBytesLE 64 n).reverse with
    | 18 :: 32 :: digest =>
      if digest.length = 32 then some ⟨0, 112, ⟨18, digest⟩⟩ else none
    | _ => none

/-- Translated from `createBlocks` in `src/ipld-example.js`: the external
link parsed from its version-0 text form. -/
def externalLink : CID :=
  (parseCIDv0 "QmV88khHDJEXi7wo6o972MZWY661R9PhrZW6dvpFP6jnMn").getD
    ⟨0, 112, ⟨18, []⟩⟩

/-- The container record (CID and bytes) of a Block, as handed to the
writer. -/
def toRecord (b : Block) : CarRecord := ⟨b.cid, b.bytes⟩

/-- Translated from `createBlocks` in `src/ipld-example.js`: two raw
leaves, a dag-cbor parent, a dag-json lister, a dag-cbor grandparent
holding the external link, and two dangling dag-cbor pointer nodes; the
grandparent is the sole root. -/
def createBlocks : Option (List Block × List CID) := do
  let leafRaw1 ← Block.encode
    (.vbytes (utf8Encode (strCodepoints "🌲 leaf node of raw bytes 🌴")))
    raw sha256
  let leafRaw2 ← Block.encode
    (.vbytes (utf8Encode (strCodepoints "🌲🌲🌲🌲🌲🌲🌲🌲🌲🌲🌲🌲🌲🌴🌴🌴🌴🌴🌴🌴🌴🌴")))
    raw sha256
  let parent ← Block.encode
    (.vmap (.mcons (strCodepoints "name")
      (.vstring (strCodepoints "parent of some weird children"))
      (.mcons (strCodepoints "children")
        (.vlist (.cons (.vlink leafRaw1.cid) (.cons (.vlink leafRaw2.cid) .nil)))
        (.mcons (strCodepoints "favouriteChild") (.vlink leafRaw2.cid) .mnil))))
    dagCBOR sha256
  let lister ← Block.encode
    (.vlist (.cons (.vlink parent.cid)
      (.cons (.vlink leafRaw1.cid) (.cons (.vlink leafRaw2.cid) .nil))))
    dagJSON sha256
  let grandparent ← Block.encode
    (.vlist (.cons
      (.vmap (.mcons (strCodepoints "name") (.vstring (strCodepoints "parent"))
        (.mcons (strCodepoints "link") (.vlink parent.cid) .mnil)))
      (.cons
        (.vmap (.mcons (strCodepoints "name") (.vstring (strCodepoints "lister"))
          (.mcons (strCodepoints "link") (.vlink lister.cid) .mnil)))
        (.cons (.vlink externalLink) .nil))))
    dagCBOR sha256
  let evergreenPointer ← Block.encode
    (.vmap (.mcons (strCodepoints "data") (.vlink leafRaw2.cid)
      (.mcons (strCodepoints "startByte") (.vint 0)
        (.mcons (strCodepoints "endByte") (.vint 52) .mnil))))
    dagCBOR sha256
  let palmsPointer ← Block.encode
    (.vmap (.mcons (strCodepoints "data") (.vlink leafRaw2.cid)
      (.mcons (strCodepoints "startByte") (.vint 52)
        (.mcons (strCodepoints "endByte") (.vint 88) .mnil))))
    dagCBOR sha256
  pure ([leafRaw1, leafRaw2, parent, lister, grandparent, evergreenPointer,
    palmsPointer], [grandparent.cid])

/-- Translated from `inspect` in `src/ipld-example.js`: the caller-supplied
codec map for one container consumer. -/
def inspectCodecs : Nat → Option Codec := fun code =>
  if code = dagCBOR.code then some dagCBOR
  else if code = dagJSON.code then some dagJSON
  else if code = raw.code then some raw
  else none

/-- Translated from `inspect` in `src/ipld-example.js`: the caller-supplied
hasher map for one container consumer. -/
def inspectHashes : Nat → Option Hasher := fun code =>
  if code = sha256.code then some sha256 else none

/-- Translated from the per-record body of `inspect` in
`src/ipld-example.js`: look up the record's codec, then its hasher, then
verify and decode via `Block.create`; an unregistered codec or hash code
fails before any decoding or verification is attempted. -/
def inspectRecord (codecs : Nat → Option Codec) (hashes : Nat → Option Hasher)
    (cid : CID) (bytes : List Nat) : Except Err Block :=
  match codecs cid.contentCodec with
  | none => .error Err.unsupportedCodecError
  | some c =>
    match hashes cid.multihash.functionCode with
    | none => .error Err.unsupportedHashError
    | some h => Block.create cid bytes c h

instance exceptDecEq {ε α : Type} [DecidableEq ε] [DecidableEq α] :
    DecidableEq (Except ε α)
  | .error a, .error b =>
    if h : a = b then isTrue (by rw [h])
    else isFalse (by intro hc; cases hc; exact h rfl)
  | .error _, .ok _ => isFalse (by intro h; cases h)
  | .ok _, .error _ => isFalse (by intro h; cases h)
  | .ok a, .ok b =>
    if h : a = b then isTrue (by rw [h])
    else isFalse (by intro hc; cases hc; exact h rfl)

theorem raw_enc_some {v : Value} {bs : List Nat} (h : raw.enc v = some bs) :
    v = .vbytes bs := by
  cases v <;> simp [raw] at h
  rw [h]

/-- C2: for every Block produced by `encode`, the verified constructor
`Block.create` on its CID and bytes succeeds and yields the same value. -/
theorem claim2_authenticity (v : Value) (c : Codec) (b : Block)
    (hc : c = raw ∨ c = dagCBOR ∨ c = dagJSON)
    (henc : Block.encode v c sha256 = some b) :
    ∃ b2, Block.create b.cid b.bytes c sha256 = .ok b2 ∧ b2.value = b.value := by
  simp only [Block.encode] at henc
  cases hce : c.enc v with
  | none => rw [hce] at henc; cases henc
  | some bytes =>
    rw [hce] at henc
    cases henc
    rw [Block.create, if_neg (by simp), if_neg (by simp)]
    rcases hc with rfl | rfl | rfl
    · have hv := raw_enc_some hce
      subst hv
      exact ⟨⟨⟨1, raw.code, sha256.hash bytes⟩, bytes, .vbytes bytes⟩, rfl, rfl⟩
    · have hbs : bytes = serializeValue v := by
        simp [dagCBOR] at hce
        rw [hce]
      subst hbs
      have hd : dagCBOR.dec (serializeValue v) = .ok v :=
        decodeCanonical_serializeValue v
      rw [hd]
      exact ⟨_, rfl, rfl⟩
    · have hbs : bytes = serializeValue v := by
        simp [dagJSON] at hce
        rw [hce]
      subst hbs
      have hd : dagJSON.dec (serializeValue v) = .ok v :=
        decodeCanonical_serializeValue v
      rw [hd]
      exact ⟨_, rfl, rfl⟩

theorem claim2_authenticity_witness :
    ∃ b2, Block.create ⟨1, 113, ⟨18, [0]⟩⟩ [0] dagCBOR sha256 = .ok b2 ∧
      b2.value = Value.vnull :=
  claim2_authenticity .vnull dagCBOR ⟨⟨1, 113, ⟨18, [0]⟩⟩, [0], .vnull⟩
    (Or.inr (Or.inl rfl)) (by decide)

/-- C3: modifying any single byte of an encoded Block's bytes makes
`Block.create` with the original CID fail with `HashMismatchError`. -/
theorem claim3_tamper_detection (v : Value) (c : Codec) (b : Block)
    (i x : Nat) (henc : Block.encode v c sha256 = some b)
    (hi : i < b.bytes.length) (hx : x ≠ b.bytes.get ⟨i, hi⟩) :
    Block.create b.cid (b.bytes.set i x) c sha256 =
      .error Err.hashMismatchError := by
  simp only [Block.encode] at henc
  cases hce : c.enc v with
  | none => rw [hce] at henc; cases henc
  | some bytes =>
    rw [hce] at henc
    cases henc
    rw [Block.create, if_pos]
    intro hmh
    apply hx
    have hset : bytes.set i x = bytes := by
      have : (sha256.hash (bytes.set i x)).digest =
          ((⟨1, c.code, sha256.hash bytes⟩ : CID).multihash).digest := by
        rw [hmh]
      simpa [sha256, Hasher.hash] using this
    have hil : i < bytes.length := by simpa using hi
    have hx2 : (bytes.set i x)[i]? = some x := by
      rw [List.getElem?_set_self]
      omega
    rw [hset] at hx2
    have hx3 : bytes[i]? = some (bytes.get ⟨i, hil⟩) := by
      rw [List.getElem?_eq_getElem hil]
      simp
    rw [hx3] at hx2
    exact (Option.some.inj hx2).symm

theorem claim3_tamper_detection_witness :
    Block.create ⟨1, 85, ⟨18, [7, 8]⟩⟩ ([7, 8].set 0 9) raw sha256 =
      .error Err.hashMismatchError :=
  claim3_tamper_detection (.vbytes [7, 8]) raw
    ⟨⟨1, 85, ⟨18, [7, 8]⟩⟩, [7, 8], .vbytes [7, 8]⟩ 0 9
    (by decide) (by decide) (by decide)

/-- C4: for every registered codec, decode inverts encode on every value
the codec can represent. -/
theorem claim4_codec_round_trip (v : Value) (c : Codec) (bs : List Nat)
    (hc : c = raw ∨ c = dagCBOR ∨ c = dagJSON)
    (henc : c.enc v = some bs) :
    c.dec bs = .ok v := by
  rcases hc with rfl | rfl | rfl
  · have hv := raw_enc_some henc
    subst hv
    rfl
  · have hbs : bs = serializeValue v := by
      simp [dagCBOR] at henc
      rw [← henc]
    subst hbs
    exact decodeCanonical_serializeValue v
  · have hbs : bs = serializeValue v := by
      simp [dagJSON] at henc
      rw [← henc]
    subst hbs
    exact decodeCanonical_serializeValue v

theorem claim4_codec_round_trip_witness :
    raw.dec [4, 2] = .ok (.vbytes [4, 2]) :=
  claim4_codec_round_trip (.vbytes [4, 2]) raw [4, 2] (Or.inl rfl) (by decide)

/-- C5: encoding the same value twice under the same codec and hash
function yields byte-identical output and an identical CID. -/
theorem claim5_deterministic_addressing (v : Value) (c : Codec) (hf : Hasher)
    (b1 b2 : Block)
    (h1 : Block.encode v c hf = some b1) (h2 : Block.encode v c hf = some b2) :
    b1.bytes = b2.bytes ∧ b1.cid = b2.cid := by
  rw [h1] at h2
  cases h2
  exact ⟨rfl, rfl⟩

theorem claim5_deterministic_addressing_witness :
    (⟨⟨1, 113, ⟨18, [0]⟩⟩, [0], .vnull⟩ : Block).bytes =
      (⟨⟨1, 113, ⟨18, [0]⟩⟩, [0], .vnull⟩ : Block).bytes ∧
    (⟨⟨1, 113, ⟨18, [0]⟩⟩, [0], .vnull⟩ : Block).cid =
      (⟨⟨1, 113, ⟨18, [0]⟩⟩, [0], .vnull⟩ : Block).cid :=
  claim5_deterministic_addressing .vnull dagCBOR sha256 _ _ (by decide) (by decide)

/-- C7: `put` after `close` fails with `WriteAfterCloseError`, and `put`
succeeds exactly when the writer is still in the `Open` state. -/
theorem claim7_put_after_close (w w2 : CarWriter) (b : CarRecord)
    (h : w.close = .ok w2) :
    w2.put b = .error Err.writeAfterCloseError ∧
    (∀ w3 : CarWriter, (∃ w4, w3.put b = .ok w4) ↔ w3.closed = false) := by
  constructor
  · rw [CarWriter.close] at h
    by_cases hc : w.closed
    · rw [if_pos hc] at h; cases h
    · rw [if_neg hc] at h
      cases h
      rw [CarWriter.put]
      simp
  · intro w3
    constructor
    · rintro ⟨w4, hw4⟩
      rw [CarWriter.put] at hw4
      by_cases hc : w3.closed
      · rw [if_pos hc] at hw4; cases hw4
      · simpa using hc
    · intro hc
      rw [CarWriter.put, hc]
      exact ⟨_, rfl⟩

theorem claim7_put_after_close_witness :
    CarWriter.put ⟨true, []⟩ ⟨⟨1, 85, ⟨18, [7]⟩⟩, [7]⟩ =
      .error Err.writeAfterCloseError :=
  (claim7_put_after_close ⟨false, []⟩ ⟨true, []⟩ ⟨⟨1, 85, ⟨18, [7]⟩⟩, [7]⟩
    (by decide)).1

/-- C9: an unregistered codec code fails with `UnsupportedCodecError` and an
unregistered hash code with `UnsupportedHashError`, in both cases before any
decode or verification is attempted (the result never depends on the
bytes). -/
theorem claim9_unsupported_codes (codecs : Nat → Option Codec)
    (hashes : Nat → Option Hasher) (cid : CID) (bytes : List Nat) :
    (codecs cid.contentCodec = none →
      inspectRecord codecs hashes cid bytes = .error Err.unsupportedCodecError) ∧
    (∀ c, codecs cid.contentCodec = some c →
      hashes cid.multihash.functionCode = none →
      inspectRecord codecs hashes cid bytes = .error Err.unsupportedHashError) ∧
    (∀ fc bs, hashes fc = none →
      hashLookup hashes fc bs = .error Err.unsupportedHashError) := by
  refine ⟨?_, ?_, ?_⟩
  · intro h
    rw [inspectRecord, h]
  · intro c hcod hh
    rw [inspectRecord, hcod, hh]
  · intro fc bs h
    rw [hashLookup, h]

theorem claim9_unsupported_codes_witness :
    inspectRecord (fun _ => none) (fun _ => none) ⟨1, 113, ⟨18, [0]⟩⟩ [0] =
      .error Err.unsupportedCodecError :=
  (claim9_unsupported_codes (fun _ => none) (fun _ => none)
    ⟨1, 113, ⟨18, [0]⟩⟩ [0]).1 rfl

/-- C1: writing any ordered block list with any root list and reading the
container back yields exactly the declared roots and the records in write
order, with no reordering, deduplication or omission. -/
theorem claim1_container_round_trip (B : List CarRecord) (R : List CID)
    (hB : ∀ b ∈ B, wellFormedCid b.cid) (hR : ∀ c ∈ R, wellFormedCid c) :
    write B R = .ok (carBytes B R) ∧
    readContainer (carBytes B R) = .ok (R, B) :=
  ⟨write_eq B R, readContainer_carBytes B R hB hR⟩

theorem claim1_container_round_trip_witness :
    write [⟨⟨1, 85, ⟨18, [7]⟩⟩, [7]⟩] [⟨1, 113, ⟨18, [9]⟩⟩] =
      .ok (carBytes [⟨⟨1, 85, ⟨18, [7]⟩⟩, [7]⟩] [⟨1, 113, ⟨18, [9]⟩⟩]) ∧
    readContainer (carBytes [⟨⟨1, 85, ⟨18, [7]⟩⟩, [7]⟩] [⟨1, 113, ⟨18, [9]⟩⟩]) =
      .ok ([⟨1, 113, ⟨18, [9]⟩⟩], [⟨⟨1, 85, ⟨18, [7]⟩⟩, [7]⟩]) :=
  claim1_container_round_trip _ _ (by decide) (by decide)

/-- C8: the writer accepts and serializes any blocks and roots without
error — also when some root matches no block and some block is not among
the roots — and the reader accepts the resulting container. -/
theorem claim8_no_validation_against_roots (B : List CarRecord) (R : List CID)
    (hB : ∀ b ∈ B, wellFormedCid b.cid) (hR : ∀ c ∈ R, wellFormedCid c)
    (hDanglingRoot : ∃ r ∈ R, ∀ b ∈ B, b.cid ≠ r)
    (hOrphanBlock : ∃ b ∈ B, b.cid ∉ R) :
    write B R = .ok (carBytes B R) ∧
    readContainer (carBytes B R) = .ok (R, B) :=
  ⟨write_eq B R, readContainer_carBytes B R hB hR⟩

theorem claim8_no_validation_against_roots_witness :
    write [⟨⟨1, 113, ⟨18, [5]⟩⟩, [5]⟩] [⟨1, 113, ⟨18, [6]⟩⟩] =
      .ok (carBytes [⟨⟨1, 113, ⟨18, [5]⟩⟩, [5]⟩] [⟨1, 113, ⟨18, [6]⟩⟩]) ∧
    readContainer (carBytes [⟨⟨1, 113, ⟨18, [5]⟩⟩, [5]⟩] [⟨1, 113, ⟨18, [6]⟩⟩]) =
      .ok ([⟨1, 113, ⟨18, [6]⟩⟩], [⟨⟨1, 113, ⟨18, [5]⟩⟩, [5]⟩]) :=
  claim8_no_validation_against_roots _ _ (by decide) (by decide)
    (by decide) (by decide)

/-- C6 as stated is false: truncating exactly at an interior frame boundary
(here byte 3, the end of the header frame, strictly before the last full
frame boundary at byte 17) reads back cleanly instead of failing with
`TruncatedRecordError`. -/
theorem claim6_truncation_counterexample :
    (carBytes [⟨⟨1, 85, ⟨18, [7]⟩⟩, [7]⟩, ⟨⟨1, 85, ⟨18, [8]⟩⟩, [8]⟩] []).length = 17 ∧
    readContainer (List.take 3
        (carBytes [⟨⟨1, 85, ⟨18, [7]⟩⟩, [7]⟩, ⟨⟨1, 85, ⟨18, [8]⟩⟩, [8]⟩] [])) =
      .ok ([], []) := by
  have hcar : carBytes [⟨⟨1, 85, ⟨18, [7]⟩⟩, [7]⟩, ⟨⟨1, 85, ⟨18, [8]⟩⟩, [8]⟩] [] =
      [2, 1, 0, 6, 1, 85, 18, 1, 7, 7, 6, 1, 85, 18, 1, 8, 8] := by
    simp [carBytes, mkFrame, headerPayload, recFrame, cidToBytes, putVarint]
  rw [hcar]
  refine ⟨rfl, ?_⟩
  have hrr : readRecords [] = .ok [] := by
    apply readRecords_of_frame_none
    rw [readFrame]
    simp
  have ht3 : List.take 3 [2, 1, 0, 6, 1, 85, 18, 1, 7, 7, 6, 1, 85, 18, 1, 8, 8] =
      [2, 1, 0] := rfl
  rw [ht3]
  simp [readContainer, readFrame, readVarint, decodeHeader, readRoots, hrr]

/-- A record-region boundary offset is exactly the total frame length of
some prefix of the written records. -/
theorem boundarySums_payload_split (B : List CarRecord) (j : Nat)
    (hj : j ∈ boundarySums (B.map (fun b => cidToBytes b.cid ++ b.bytes))) :
    ∃ B1 B2, B = B1 ++ B2 ∧ j = ((B1.map recFrame).flatten).length := by
  induction B generalizing j with
  | nil =>
    simp only [List.map_nil, boundarySums, List.mem_singleton] at hj
    exact ⟨[], [], rfl, by simp [hj]⟩
  | cons b tl ih =>
    simp only [List.map_cons] at hj
    rw [mem_boundarySums_cons] at hj
    rcases hj with rfl | ⟨j2, hj2, rfl⟩
    · exact ⟨[], b :: tl, rfl, by simp⟩
    · obtain ⟨B1, B2, rfl, hlen⟩ := ih j2 hj2
      refine ⟨b :: B1, B2, rfl, ?_⟩
      simp only [List.map_cons, List.flatten_cons, List.length_append, recFrame]
      omega

/-- C6 (amended): truncating a written container at a point that is not a
frame boundary fails with `TruncatedRecordError`; a clean end-of-stream
exactly on a frame boundary terminates the record sequence without error,
reading back the declared roots and precisely the records whose frames lie
before the cut. -/
theorem claim6_truncation_amended (B : List CarRecord) (R : List CID)
    (hB : ∀ b ∈ B, wellFormedCid b.cid) (hR : ∀ c ∈ R, wellFormedCid c)
    (k : Nat) (hk0 : 0 < k) (hklen : k < (carBytes B R).length) :
    (k ∉ carBoundaries B R →
      readContainer (List.take k (carBytes B R)) =
        .error Err.truncatedRecordError) ∧
    (k ∈ carBoundaries B R →
      ∃ B1 B2, B = B1 ++ B2 ∧ k = (carBytes B1 R).length ∧
        readContainer (List.take k (carBytes B R)) = .ok (R, B1)) := by
  refine ⟨(readContainer_take B R hB hR k hk0 hklen).1, ?_⟩
  intro hmem
  rw [carBoundaries, carPayloads, mem_boundarySums_cons] at hmem
  rcases hmem with h0 | ⟨j, hj, hk⟩
  · omega
  · obtain ⟨B1, B2, rfl, hjlen⟩ := boundarySums_payload_split _ j hj
    have hsplit : carBytes (B1 ++ B2) R =
        carBytes B1 R ++ ((B2.map recFrame).flatten) := by
      simp [carBytes, List.append_assoc]
    have hklen1 : k = (carBytes B1 R).length := by
      rw [carBytes, List.length_append]
      omega
    refine ⟨B1, B2, rfl, hklen1, ?_⟩
    have htake : List.take k (carBytes (B1 ++ B2) R) = carBytes B1 R := by
      rw [hsplit, hklen1]
      simp
    rw [htake]
    exact readContainer_carBytes B1 R (fun b hb => hB b (by simp [hb])) hR

theorem claim6_truncation_amended_witness :
    readContainer (List.take 4 (carBytes [⟨⟨1, 85, ⟨18, [7]⟩⟩, [7]⟩] [])) =
      .error Err.truncatedRecordError := by
  have hlen : (4 : Nat) < (carBytes [⟨⟨1, 85, ⟨18, [7]⟩⟩, [7]⟩] []).length := by
    simp [carBytes, mkFrame, headerPayload, recFrame, cidToBytes, putVarint]
  have hmem : (4 : Nat) ∉ carBoundaries [⟨⟨1, 85, ⟨18, [7]⟩⟩, [7]⟩] [] := by
    simp [carBoundaries, carPayloads, boundarySums, mkFrame, headerPayload,
      recFrame, cidToBytes, putVarint]
  exact (claim6_truncation_amended [⟨⟨1, 85, ⟨18, [7]⟩⟩, [7]⟩] []
    (by decide) (by decide) 4 (by decide) hlen).1 hmem

/-- C10: in the container produced by the generation path, the root
(grandparent) block's value embeds the version-0 external link parsed from
"QmV88khHDJEXi7wo6o972MZWY661R9PhrZW6dvpFP6jnMn", that CID matches no
record stored in the container, and every block actually written carries a
version-1 CID. -/
theorem claim10_external_link_dangling :
    ∃ bl rt out, createBlocks = some (bl, rt) ∧
      write (bl.map toRecord) rt = .ok out ∧
      readContainer out = .ok (rt, bl.map toRecord) ∧
      (∃ gp ∈ bl, rt = [gp.cid] ∧ externalLink ∈ valueLinks gp.value) ∧
      externalLink.version = 0 ∧
      (∀ r ∈ bl.map toRecord, r.cid.version = 1) ∧
      (∀ r ∈ bl.map toRecord, r.cid ≠ externalLink) := by
  have hv0 : externalLink.version = 0 := by decide
  refine ⟨_, _, _, rfl, write_eq _ _, ?_, ?_, hv0, ?_, ?_⟩
  · apply readContainer_carBytes
    · intro r hr
      simp only [List.mem_map] at hr
      obtain ⟨b, hb, rfl⟩ := hr
      simp only [List.mem_cons, List.not_mem_nil, or_false] at hb
      rcases hb with rfl | rfl | rfl | rfl | rfl | rfl | rfl <;>
        exact Or.inl rfl
    · intro c hc
      simp only [List.mem_cons, List.not_mem_nil, or_false] at hc
      rcases hc with rfl
      exact Or.inl rfl
  · refine ⟨_, List.mem_cons_of_mem _ (List.mem_cons_of_mem _
      (List.mem_cons_of_mem _ (List.mem_cons_of_mem _
        (List.mem_cons_self _ _)))), rfl, ?_⟩
    simp [valueLinks, valueLinksL, valueLinksM]
  · intro r hr
    simp only [List.mem_map] at hr
    obtain ⟨b, hb, rfl⟩ := hr
    simp only [List.mem_cons, List.not_mem_nil, or_false] at hb
    rcases hb with rfl | rfl | rfl | rfl | rfl | rfl | rfl <;> rfl
  · intro r hr heq
    simp only [List.mem_map] at hr
    obtain ⟨b, hb, rfl⟩ := hr
    have hver := congrArg CID.version heq
    rw [hv0] at hver
    simp only [List.mem_cons, List.not_mem_nil, or_false] at hb
    rcases hb with rfl | rfl | rfl | rfl | rfl | rfl | rfl <;> cases hver

end IpldExample
